import Mathlib

/-!
Shallow embedding of the textype practice-generation and input-validation
core (`src/textype/generator_algorithms.py`, `src/textype/keyboard.py`, and
the validation/rendering part of `src/textype/main.py`), together with
theorems settling the frozen claims about it.

Randomness is modelled as an injected dependency: `random.shuffle` becomes a
caller-supplied function on the shuffled pool (a permutation in the theorems
that need it), `random.choice([3,4,5])` becomes a stream of `Fin 3` indices,
and `random.choices(all_keys, k)` becomes a stream of natural numbers reduced
modulo the population size.  Python's in-place `random.shuffle(pool)` always
targets a list that is freshly allocated inside the generator, so replacing
it by a functional update is faithful; the aliasing structure itself is
verified separately through an explicit heap model (see the `*H` versions of
the generators used for claim C9).
-/

namespace Textype

/-- Enumeration of physical keys, from `keyboard.PhysicalKey` (evdev
scancodes are reproduced by `PhysicalKey.value`). -/
inductive PhysicalKey where
  | KEY_ESCAPE | KEY_TILDE | KEY_1 | KEY_2 | KEY_3 | KEY_4 | KEY_5 | KEY_6
  | KEY_7 | KEY_8 | KEY_9 | KEY_0 | KEY_MINUS | KEY_EQUAL | KEY_BACKSPACE
  | KEY_TAB | KEY_Q | KEY_W | KEY_E | KEY_R | KEY_T | KEY_Y | KEY_U | KEY_I
  | KEY_O | KEY_P | KEY_LEFT_BRACKET | KEY_RIGHT_BRACKET | KEY_BACKSLASH
  | KEY_A | KEY_S | KEY_D | KEY_F | KEY_G | KEY_H | KEY_J | KEY_K | KEY_L
  | KEY_SEMICOLON | KEY_QUOTE | KEY_ENTER
  | KEY_SHIFT_LEFT | KEY_Z | KEY_X | KEY_C | KEY_V | KEY_B | KEY_N | KEY_M
  | KEY_COMMA | KEY_DOT | KEY_SLASH | KEY_SHIFT_RIGHT | KEY_SPACE
deriving DecidableEq, Repr

/-- Evdev scancode of a physical key (`PhysicalKey.value` in `keyboard.py`). -/
def PhysicalKey.value : PhysicalKey → Nat
  | .KEY_ESCAPE => 1
  | .KEY_TILDE => 41
  | .KEY_1 => 2
  | .KEY_2 => 3
  | .KEY_3 => 4
  | .KEY_4 => 5
  | .KEY_5 => 6
  | .KEY_6 => 7
  | .KEY_7 => 8
  | .KEY_8 => 9
  | .KEY_9 => 10
  | .KEY_0 => 11
  | .KEY_MINUS => 12
  | .KEY_EQUAL => 13
  | .KEY_BACKSPACE => 14
  | .KEY_TAB => 15
  | .KEY_Q => 16
  | .KEY_W => 17
  | .KEY_E => 18
  | .KEY_R => 19
  | .KEY_T => 20
  | .KEY_Y => 21
  | .KEY_U => 22
  | .KEY_I => 23
  | .KEY_O => 24
  | .KEY_P => 25
  | .KEY_LEFT_BRACKET => 26
  | .KEY_RIGHT_BRACKET => 27
  | .KEY_BACKSLASH => 43
  | .KEY_A => 30
  | .KEY_S => 31
  | .KEY_D => 32
  | .KEY_F => 33
  | .KEY_G => 34
  | .KEY_H => 35
  | .KEY_J => 36
  | .KEY_K => 37
  | .KEY_L => 38
  | .KEY_SEMICOLON => 39
  | .KEY_QUOTE => 40
  | .KEY_ENTER => 28
  | .KEY_SHIFT_LEFT => 42
  | .KEY_Z => 44
  | .KEY_X => 45
  | .KEY_C => 46
  | .KEY_V => 47
  | .KEY_B => 48
  | .KEY_N => 49
  | .KEY_M => 50
  | .KEY_COMMA => 51
  | .KEY_DOT => 52
  | .KEY_SLASH => 53
  | .KEY_SHIFT_RIGHT => 54
  | .KEY_SPACE => 57

/-- Row layout: ordered left-hand and right-hand key lists
(`keyboard.RowLayout`). -/
structure RowLayout where
  left : List PhysicalKey
  right : List PhysicalKey
deriving DecidableEq, Repr

/-- Python list repetition `l * n`. -/
def listMul (l : List α) (n : Nat) : List α := (List.replicate n l).flatten

/-- The shared flattening loop of the generators:
`seq = []; for u in pool: seq.extend(u); seq.append(KEY_SPACE)`. -/
def joinUnits : List (List PhysicalKey) → List PhysicalKey
  | [] => []
  | u :: rest => u ++ PhysicalKey.KEY_SPACE :: joinUnits rest

/-- The shared return expression `seq[:-1] if seq else []` applied to
`joinUnits`. -/
def joinTrim (pool : List (List PhysicalKey)) : List PhysicalKey :=
  (joinUnits pool).dropLast

/-- From `generator_algorithms.single_key_repeat`.  `shuffleFn` stands for the
in-place `random.shuffle` applied to the fresh copy `pool = keys[:]`. -/
def single_key_repeat (shuffleFn : List PhysicalKey → List PhysicalKey)
    (keys : List PhysicalKey) (reps : Nat) (shuffle : Bool) :
    List PhysicalKey :=
  let pool := if shuffle then shuffleFn keys else keys
  joinTrim (pool.map fun k => List.replicate reps k)

/-- The pair-building loop of `same_hand_adjacent` for one hand:
`for idx in range(len(hand_keys) - 1): pairs.append([hand_keys[idx],
hand_keys[idx + 1]])`. -/
def adjacentPairs (hand : List PhysicalKey) : List (List PhysicalKey) :=
  List.zipWith (fun a b => [a, b]) hand hand.tail

/-- From `generator_algorithms.same_hand_adjacent`. -/
def same_hand_adjacent
    (shuffleFn : List (List PhysicalKey) → List (List PhysicalKey))
    (row_keys : RowLayout) (reps : Nat) (shuffle : Bool) : List PhysicalKey :=
  let pairs := adjacentPairs row_keys.left ++ adjacentPairs row_keys.right
  let pool := listMul pairs reps
  joinTrim (if shuffle then shuffleFn pool else pool)

/-- From `generator_algorithms.alternating_pairs`:
`for left_key, right_key in zip(row_keys["left"], row_keys["right"])`. -/
def alternating_pairs
    (shuffleFn : List (List PhysicalKey) → List (List PhysicalKey))
    (row_keys : RowLayout) (reps : Nat) (shuffle : Bool) : List PhysicalKey :=
  let pairs := List.zipWith (fun l r => [l, r]) row_keys.left row_keys.right
  let pool := listMul pairs reps
  joinTrim (if shuffle then shuffleFn pool else pool)

/-- Python negative indexing `l[-k]` (for `k ≥ 1`): `none` models the
`IndexError` raised when `k > len(l)`. -/
def pyNegIdx (l : List PhysicalKey) (k : Nat) : Option PhysicalKey :=
  if h : 1 ≤ k ∧ k ≤ l.length then
    some (l.get ⟨l.length - k, by omega⟩)
  else
    none

/-- The pair-building loop of `mirror_pairs`:
`for idx in range(len(row_keys["left"])): pairs.append([row_keys["left"][idx],
row_keys["right"][-(idx + 1)]])`, walking `left` structurally while the
counter `idx` advances. -/
def mirrorPairsFrom (left right : List PhysicalKey) (idx : Nat) :
    Option (List (List PhysicalKey)) :=
  match left with
  | [] => some []
  | l :: ls =>
    match pyNegIdx right (idx + 1) with
    | none => none
    | some r => (mirrorPairsFrom ls right (idx + 1)).map fun rest => [l, r] :: rest

/-- From `generator_algorithms.mirror_pairs`; `none` models the `IndexError`
escaping the pair loop. -/
def mirror_pairs
    (shuffleFn : List (List PhysicalKey) → List (List PhysicalKey))
    (row_keys : RowLayout) (reps : Nat) (shuffle : Bool) :
    Option (List PhysicalKey) :=
  match mirrorPairsFrom row_keys.left row_keys.right 0 with
  | none => none
  | some pairs =>
    let pool := listMul pairs reps
    some (joinTrim (if shuffle then shuffleFn pool else pool))

/-- From `generator_algorithms.rolls`. -/
def rolls (shuffleFn : List (List PhysicalKey) → List (List PhysicalKey))
    (row_keys : RowLayout) (reps : Nat) (shuffle : Bool) : List PhysicalKey :=
  let patterns := [row_keys.left, row_keys.left.reverse,
    row_keys.right, row_keys.right.reverse]
  let pool := listMul patterns reps
  joinTrim (if shuffle then shuffleFn pool else pool)

/-- Word lengths drawn by `random.choice([3, 4, 5])` for word number `i`. -/
def pseudoWordLen (lenChoice : Nat → Fin 3) (i : Nat) : Nat :=
  ([3, 4, 5] : List Nat).get (Fin.cast (by decide) (lenChoice i))

/-- Loop that collects one optional result per iteration index, aborting on
the first failure (the effect of an exception escaping a Python `for`
loop). -/
def collectWords (f : Nat → Option (List PhysicalKey)) :
    List Nat → Option (List (List PhysicalKey))
  | [] => some []
  | i :: rest =>
    match f i with
    | none => none
    | some w => (collectWords f rest).map fun ws => w :: ws

/-- One pseudo-word: `random.choices(all_keys, k=length)`, which raises
`IndexError` (modelled as `none`) on an empty population and otherwise draws
`length` population members with replacement. -/
def pseudoWord (lenChoice : Nat → Fin 3) (keyChoice : Nat → Nat → Nat)
    (all_keys : List PhysicalKey) (i : Nat) : Option (List PhysicalKey) :=
  if all_keys.length = 0 then
    none
  else
    some ((List.range (pseudoWordLen lenChoice i)).map fun j =>
      all_keys.getD (keyChoice i j % all_keys.length) PhysicalKey.KEY_SPACE)

/-- From `generator_algorithms.pseudo_words`.  Note the source returns `seq`
directly, without the trailing-boundary trim the other generators
perform. -/
def pseudo_words (lenChoice : Nat → Fin 3) (keyChoice : Nat → Nat → Nat)
    (row_keys : RowLayout) (count : Nat) : Option (List PhysicalKey) :=
  let all_keys := row_keys.left ++ row_keys.right
  (collectWords (pseudoWord lenChoice keyChoice all_keys)
    (List.range count)).map fun words => joinUnits words

/-- Shift policy of a lesson (`shift_mode` strings `"off"`, `"mixed"`,
`"always"` in `main.py`). -/
inductive ShiftMode where
  | off | mixed | always
deriving DecidableEq, Repr

/-- From `main._should_use_shift`; `coin` is the outcome of the
`random.choice([True, False])` draw consumed in `"mixed"` mode. -/
def should_use_shift (mode : ShiftMode) (coin : Bool) : Bool :=
  match mode with
  | .always => true
  | .mixed => coin
  | .off => false

/-- From `main._resolve_key_character`: resolve the key's scancode under the
requested modifier, retrying unshifted when the shifted resolution produced
nothing.  `res code shift` is the external XKB resolver. -/
def resolve_key_character (res : Nat → Bool → Option Char) (key : PhysicalKey)
    (use_shift : Bool) : Option Char :=
  match res key.value use_shift with
  | some c => some c
  | none => if use_shift then res key.value false else none

/-- From `main._render_keys_to_text`.  `coins n` is the `n`-th random draw of
`_should_use_shift`; one draw is consumed per non-space key, so the counter
argument advances only on those. Python appends `char or ""` to the rendered
list; a failed resolution therefore contributes nothing to the joined
string. -/
def render_keys_to_text (res : Nat → Bool → Option Char) (coins : Nat → Bool)
    (mode : ShiftMode) : List PhysicalKey → Nat → List Char
  | [], _ => []
  | key :: rest, n =>
    if key = PhysicalKey.KEY_SPACE then
      ' ' :: render_keys_to_text res coins mode rest n
    else
      let use_shift := should_use_shift mode (coins n)
      (match resolve_key_character res key use_shift with
        | some c => [c]
        | none => []) ++ render_keys_to_text res coins mode rest (n + 1)

/-- Index of the shift coin consumed for position `i` of the key sequence:
the number of non-space keys strictly before `i`, offset by the starting
counter `n`. -/
def coinIndexAt (S : List PhysicalKey) (n i : Nat) : Nat :=
  n + (S.take i).countP fun k => decide (k ≠ PhysicalKey.KEY_SPACE)

/-- Character that position `i` of the render should hold: a literal space
for the boundary key, otherwise the (fallback-aware) resolution of the key
under the shift coin assigned to that position. -/
def renderCharAt (res : Nat → Bool → Option Char) (coins : Nat → Bool)
    (mode : ShiftMode) (S : List PhysicalKey) (n i : Nat) : Option Char :=
  match S.get? i with
  | none => none
  | some key =>
    if key = PhysicalKey.KEY_SPACE then some ' '
    else resolve_key_character res key
      (should_use_shift mode (coins (coinIndexAt S n i)))

/-- Validator state for one practice chunk (the fields of `TypingTutor`
consulted by the validation branch of `on_key`). -/
structure TutorState where
  typed_text : List Char
  target_keys : List PhysicalKey
  target_text : List Char
  current_chunk_errors : Nat
deriving DecidableEq, Repr

/-- Keyboard events as `on_key` distinguishes them: the named keys it
special-cases, a printable key with its character, or anything else
(ignored). -/
inductive KeyEvent where
  | backspace | space | enter | tab
  | printable (c : Char)
  | other
deriving DecidableEq, Repr

/-- Step 1 of `on_key`: which character a (non-backspace) event produces;
`none` for events that are neither printable nor space/enter/tab. -/
def classify_char : KeyEvent → Option Char
  | .space => some ' '
  | .enter => some '\n'
  | .tab => some '\t'
  | .printable c => some c
  | _ => none

/-- Step 2 of `on_key`: the physical key guessed for a typed character;
space, newline/carriage-return and tab are hard-wired, anything else goes
through the reverse `char_to_physical` map. -/
def char_to_physical_pressed (revMap : Char → Option PhysicalKey) (c : Char) :
    Option PhysicalKey :=
  if c = ' ' then some PhysicalKey.KEY_SPACE
  else if c = '\n' ∨ c = '\r' then some PhysicalKey.KEY_ENTER
  else if c = '\t' then some PhysicalKey.KEY_TAB
  else revMap c

/-- Steps 3-4 of `on_key` (the `is_correct` computation) for a character `c`
typed at position `idx`. -/
def keystroke_correct (revMap : Char → Option PhysicalKey)
    (target_keys : List PhysicalKey) (target_text : List Char) (idx : Nat)
    (c : Char) : Bool :=
  let physical_pressed := char_to_physical_pressed revMap c
  let expected_physical := target_keys.getD idx PhysicalKey.KEY_SPACE
  let target_char := target_text.getD idx ' '
  let char_match :=
    decide (c = target_char) ||
      (decide (physical_pressed = some PhysicalKey.KEY_ENTER) &&
        (decide (c = '\n') || decide (c = '\r')) &&
        (decide (target_char = '\n') || decide (target_char = '\r')))
  match physical_pressed with
  | some p => decide (p = expected_physical) && char_match
  | none => char_match

/-- The per-keystroke transition of `main.on_key` on the validator state
(lines 395-471; the session-inactive and UI/timing parts are outside this
model, and the chunk transitions triggered by enter/`s` on a finished chunk
replace the state wholesale in the excluded driver, so a finished chunk is a
fixed point here). -/
def on_key (hard : Bool) (revMap : Char → Option PhysicalKey)
    (st : TutorState) (ev : KeyEvent) : TutorState :=
  if st.target_text.length ≤ st.typed_text.length then
    st
  else
    match ev with
    | .backspace => { st with typed_text := st.typed_text.dropLast }
    | _ =>
      match classify_char ev with
      | none => st
      | some c =>
        let idx := st.typed_text.length
        if idx < st.target_keys.length then
          if keystroke_correct revMap st.target_keys st.target_text idx c then
            { st with typed_text := st.typed_text ++ [c] }
          else
            { st with
              current_chunk_errors := st.current_chunk_errors + 1,
              typed_text := if hard then st.typed_text
                else st.typed_text ++ [c] }
        else st

/-- Acceptance rule as the specification words it: with a physical guess
present, both the physical key and the character must match (newline and
carriage return counted as equal when the expected character is either and
the pressed key is Enter); with no guess, the character alone decides. -/
def spec_accepts (revMap : Char → Option PhysicalKey)
    (target_keys : List PhysicalKey) (target_text : List Char) (idx : Nat)
    (c : Char) : Prop :=
  match char_to_physical_pressed revMap c with
  | some p =>
    p = target_keys.getD idx PhysicalKey.KEY_SPACE ∧
      (c = target_text.getD idx ' ' ∨
        (p = PhysicalKey.KEY_ENTER ∧ (c = '\n' ∨ c = '\r') ∧
          (target_text.getD idx ' ' = '\n' ∨ target_text.getD idx ' ' = '\r')))
  | none => c = target_text.getD idx ' '

/-- Absence of two consecutive boundary entries. -/
def NoDoubleBoundary (l : List PhysicalKey) : Prop :=
  l.Chain' fun a b =>
    ¬(a = PhysicalKey.KEY_SPACE ∧ b = PhysicalKey.KEY_SPACE)

/-- The boundary invariant the specification states for generated sequences:
no two consecutive boundaries, and no boundary at the start or the end. -/
def BoundaryInvariant (l : List PhysicalKey) : Prop :=
  NoDoubleBoundary l ∧ l.head? ≠ some PhysicalKey.KEY_SPACE ∧
    l.getLast? ≠ some PhysicalKey.KEY_SPACE

instance (l : List PhysicalKey) : Decidable (NoDoubleBoundary l) :=
  List.decidableChain' l

instance (l : List PhysicalKey) : Decidable (BoundaryInvariant l) :=
  instDecidableAnd

/-!
Heap model for the mutation claim.  Python lists are heap cells addressed by
references; the caller passes its key lists by reference, and the generators
are re-embedded below threading the heap explicitly.  A cell is written only
where the source mutates a list in place (`random.shuffle`); plain local
values (`pairs`, `seq`, `pool` when it is a fresh list of pairs) stay
functional because the source never aliases them with caller data.
-/

/-- Reference into the list heap. -/
abbrev HRef := Nat

/-- Heap of Python lists of physical keys, addressed by allocation order. -/
abbrev Heap := List (List PhysicalKey)

/-- Contents of the list a reference points to. -/
def readH (h : Heap) (r : HRef) : List PhysicalKey := h.getD r []

/-- Allocation of a fresh list (`keys[:]`, `left_keys[::-1]`, ...). -/
def allocH (h : Heap) (v : List PhysicalKey) : Heap × HRef :=
  (h ++ [v], h.length)

/-- In-place overwrite of a list cell (the effect of `random.shuffle`). -/
def writeH (h : Heap) (r : HRef) (v : List PhysicalKey) : Heap := h.set r v

/-- Heap-threaded `single_key_repeat`: `pool = keys[:]` allocates a fresh
cell, `random.shuffle(pool)` overwrites that cell with a permutation of its
contents, and the output is built by reading `pool`. -/
def single_key_repeatH (shuffleFn : List PhysicalKey → List PhysicalKey)
    (h : Heap) (keysRef : HRef) (reps : Nat) (shuffle : Bool) :
    Heap × List PhysicalKey :=
  let step1 := allocH h (readH h keysRef)
  let h1 := step1.1
  let poolRef := step1.2
  let h2 := if shuffle then writeH h1 poolRef (shuffleFn (readH h1 poolRef))
    else h1
  (h2, joinTrim ((readH h2 poolRef).map fun k => List.replicate reps k))

/-- Heap-threaded `same_hand_adjacent`: `pairs` and `pool` are fresh local
lists of fresh two-element lists, and `random.shuffle(pool)` reorders that
local list only, so the heap is untouched. -/
def same_hand_adjacentH
    (shuffleFn : List (List PhysicalKey) → List (List PhysicalKey))
    (h : Heap) (leftRef rightRef : HRef) (reps : Nat) (shuffle : Bool) :
    Heap × List PhysicalKey :=
  (h, same_hand_adjacent shuffleFn ⟨readH h leftRef, readH h rightRef⟩
    reps shuffle)

/-- Heap-threaded `alternating_pairs`; as for `same_hand_adjacentH`, only
local fresh lists are shuffled. -/
def alternating_pairsH
    (shuffleFn : List (List PhysicalKey) → List (List PhysicalKey))
    (h : Heap) (leftRef rightRef : HRef) (reps : Nat) (shuffle : Bool) :
    Heap × List PhysicalKey :=
  (h, alternating_pairs shuffleFn ⟨readH h leftRef, readH h rightRef⟩
    reps shuffle)

/-- Heap-threaded `mirror_pairs`; only local fresh lists are shuffled. -/
def mirror_pairsH
    (shuffleFn : List (List PhysicalKey) → List (List PhysicalKey))
    (h : Heap) (leftRef rightRef : HRef) (reps : Nat) (shuffle : Bool) :
    Heap × Option (List PhysicalKey) :=
  (h, mirror_pairs shuffleFn ⟨readH h leftRef, readH h rightRef⟩
    reps shuffle)

/-- Heap-threaded `rolls`.  Here `patterns` holds the caller's two lists by
reference next to two freshly allocated reversed copies; `pool = patterns *
reps` duplicates the references and `random.shuffle(pool)` permutes the
local list of references, never writing through them. -/
def rollsH (shuffleFn : List HRef → List HRef) (h : Heap)
    (leftRef rightRef : HRef) (reps : Nat) (shuffle : Bool) :
    Heap × List PhysicalKey :=
  let step1 := allocH h (readH h leftRef).reverse
  let h1 := step1.1
  let revLeftRef := step1.2
  let step2 := allocH h1 (readH h1 rightRef).reverse
  let h2 := step2.1
  let revRightRef := step2.2
  let patterns : List HRef := [leftRef, revLeftRef, rightRef, revRightRef]
  let pool := listMul patterns reps
  let pool2 := if shuffle then shuffleFn pool else pool
  (h2, joinTrim (pool2.map (readH h2)))

/-- Heap-threaded `pseudo_words`: `all_keys = left + right` is a fresh
concatenation and nothing is mutated. -/
def pseudo_wordsH (lenChoice : Nat → Fin 3) (keyChoice : Nat → Nat → Nat)
    (h : Heap) (leftRef rightRef : HRef) (count : Nat) :
    Heap × Option (List PhysicalKey) :=
  (h, pseudo_words lenChoice keyChoice ⟨readH h leftRef, readH h rightRef⟩
    count)

/-!
Concrete fixtures used by witnesses and counterexamples.
-/

/-- Identity stand-in for `random.shuffle` on a key pool. -/
def noShuffleK : List PhysicalKey → List PhysicalKey := id

/-- Identity stand-in for `random.shuffle` on a pool of units. -/
def noShuffleP : List (List PhysicalKey) → List (List PhysicalKey) := id

/-- Identity stand-in for `random.shuffle` on a pool of references. -/
def noShuffleR : List HRef → List HRef := id

/-- Degenerate word-length stream: every `random.choice([3, 4, 5])` yields
the first entry. -/
def lenChoice0 : Nat → Fin 3 := fun _ => 0

/-- Degenerate key-pick stream: every `random.choices` draw takes index 0. -/
def keyChoice0 : Nat → Nat → Nat := fun _ _ => 0

/-- The `"home"` row of `keyboard.LAYOUT`. -/
def homeRow : RowLayout :=
  { left := [.KEY_A, .KEY_S, .KEY_D, .KEY_F],
    right := [.KEY_J, .KEY_K, .KEY_L, .KEY_SEMICOLON] }

/-- Row layout with both hands empty. -/
def emptyRow : RowLayout := { left := [], right := [] }

/-- Resolver that maps nothing (a fully unmapped layout). -/
def noneResolver : Nat → Bool → Option Char := fun _ _ => none

/-- Small deterministic resolver: the `A` scancode yields `a`/`A`, the `J`
scancode yields `j`/`J`, everything else is unmapped. -/
def miniResolver : Nat → Bool → Option Char := fun code shift =>
  if code = 30 then (if shift then some 'A' else some 'a')
  else if code = 36 then (if shift then some 'J' else some 'j')
  else none

/-- Coin stream that always answers `false`. -/
def allFalseCoins : Nat → Bool := fun _ => false

/-- Reverse character-to-key map of `miniResolver`, as
`main._build_char_to_physical_map` would produce it. -/
def miniRevMap : Char → Option PhysicalKey := fun c =>
  if c = 'a' ∨ c = 'A' then some PhysicalKey.KEY_A
  else if c = 'j' ∨ c = 'J' then some PhysicalKey.KEY_J
  else none

/-- Reverse map with a deliberate cross mapping: `a` reverse-resolves to the
`S` key (two keys of a layout can produce the same character). -/
def crossRevMap : Char → Option PhysicalKey := fun c =>
  if c = 'a' then some PhysicalKey.KEY_S else none

/-- Chunk state awaiting its first keystroke, one-key target. -/
def stWrong : TutorState :=
  { typed_text := [], target_keys := [PhysicalKey.KEY_A],
    target_text := ['a'], current_chunk_errors := 0 }

/-- Chunk state whose target is fully typed. -/
def stDone : TutorState :=
  { typed_text := ['a'], target_keys := [PhysicalKey.KEY_A],
    target_text := ['a'], current_chunk_errors := 0 }

/-- Mid-chunk state with one accepted character and some recorded errors. -/
def stMid : TutorState :=
  { typed_text := ['a'], target_keys := [PhysicalKey.KEY_A, PhysicalKey.KEY_J],
    target_text := ['a', 'j'], current_chunk_errors := 3 }

/-- Small key sequence used to exercise the renderer. -/
def renderS : List PhysicalKey :=
  [PhysicalKey.KEY_A, PhysicalKey.KEY_SPACE, PhysicalKey.KEY_J]

/-- Concrete three-cell heap: cell 0 a left hand, cell 1 a right hand,
cell 2 a flat key list. -/
def heap0 : Heap :=
  [[PhysicalKey.KEY_A], [PhysicalKey.KEY_J],
    [PhysicalKey.KEY_A, PhysicalKey.KEY_S]]

/-!
Structural lemmas about the shared boundary-joining loop.
-/

theorem joinUnits_cons (u : List PhysicalKey) (rest : List (List PhysicalKey)) :
    joinUnits (u :: rest) = (u ++ [PhysicalKey.KEY_SPACE]) ++ joinUnits rest := by
  simp [joinUnits]

theorem joinUnits_ne_nil (u : List PhysicalKey) (rest : List (List PhysicalKey)) :
    joinUnits (u :: rest) ≠ [] := by
  simp [joinUnits]

theorem joinTrim_single (u : List PhysicalKey) : joinTrim [u] = u := by
  have h : joinUnits [u] = u ++ [PhysicalKey.KEY_SPACE] := by simp [joinUnits]
  rw [joinTrim, h, List.dropLast_concat]

theorem joinTrim_cons (u : List PhysicalKey) (rest : List (List PhysicalKey))
    (h : rest ≠ []) :
    joinTrim (u :: rest) = u ++ PhysicalKey.KEY_SPACE :: joinTrim rest := by
  have h2 : joinUnits rest ≠ [] := by
    cases rest with
    | nil => exact absurd rfl h
    | cons v rs => exact joinUnits_ne_nil v rs
  rw [joinTrim, joinUnits_cons, List.dropLast_append_of_ne_nil _ h2]
  simp [joinTrim]

theorem joinTrim_ne_nil (pool : List (List PhysicalKey)) (h : pool ≠ [])
    (h1 : ∀ u ∈ pool, u ≠ []) : joinTrim pool ≠ [] := by
  cases pool with
  | nil => exact absurd rfl h
  | cons u rest =>
    by_cases hr : rest = []
    · subst hr
      rw [joinTrim_single]
      exact h1 u (List.mem_cons_self u [])
    · rw [joinTrim_cons u rest hr]
      simp

theorem joinUnits_split (pool : List (List PhysicalKey)) (h : pool ≠ []) :
    joinUnits pool = joinTrim pool ++ [PhysicalKey.KEY_SPACE] := by
  induction pool with
  | nil => exact absurd rfl h
  | cons u rest ih =>
    by_cases hr : rest = []
    · subst hr
      rw [joinTrim_single]
      simp [joinUnits]
    · rw [joinUnits_cons, ih hr, joinTrim_cons u rest hr]
      simp

theorem joinUnits_length (pool : List (List PhysicalKey)) :
    (joinUnits pool).length = (pool.map List.length).sum + pool.length := by
  induction pool with
  | nil => simp [joinUnits]
  | cons u rest ih => simp [joinUnits, ih]; omega

theorem joinTrim_length (pool : List (List PhysicalKey)) :
    (joinTrim pool).length = (pool.map List.length).sum + pool.length - 1 := by
  rw [joinTrim, List.length_dropLast, joinUnits_length]

theorem joinUnits_count (pool : List (List PhysicalKey)) (k : PhysicalKey) :
    (joinUnits pool).count k = (pool.map (List.count k)).sum +
      (if k = PhysicalKey.KEY_SPACE then pool.length else 0) := by
  induction pool with
  | nil => simp [joinUnits]
  | cons u rest ih =>
    by_cases hk : k = PhysicalKey.KEY_SPACE
    · subst hk
      simp [joinUnits, List.count_append, List.count_cons, ih]
      omega
    · simp [joinUnits, List.count_append, List.count_cons, ih, hk]

theorem joinTrim_count (pool : List (List PhysicalKey)) (h : pool ≠ [])
    (k : PhysicalKey) :
    (joinTrim pool).count k = (pool.map (List.count k)).sum +
      (if k = PhysicalKey.KEY_SPACE then pool.length else 0) -
      (if k = PhysicalKey.KEY_SPACE then 1 else 0) := by
  have hs := joinUnits_split pool h
  have hc := joinUnits_count pool k
  rw [hs, List.count_append] at hc
  by_cases hk : k = PhysicalKey.KEY_SPACE <;>
    simp [hk, List.count_cons] at hc ⊢ <;> omega

/-!
Boundary-invariant lemmas.
-/

theorem head?_ne_space_of_not_mem {l : List PhysicalKey}
    (h : PhysicalKey.KEY_SPACE ∉ l) : l.head? ≠ some PhysicalKey.KEY_SPACE := by
  cases l with
  | nil => simp
  | cons a l =>
    simp only [List.head?_cons, ne_eq, Option.some.injEq]
    intro ha
    exact h (ha ▸ List.mem_cons_self a l)

theorem getLast?_ne_space_of_not_mem {l : List PhysicalKey}
    (h : PhysicalKey.KEY_SPACE ∉ l) :
    l.getLast? ≠ some PhysicalKey.KEY_SPACE := by
  intro heq
  exact h (List.mem_of_mem_getLast? (Option.mem_def.mpr heq))

theorem noDouble_of_not_mem {l : List PhysicalKey}
    (h : PhysicalKey.KEY_SPACE ∉ l) : NoDoubleBoundary l := by
  induction l with
  | nil => exact List.chain'_nil
  | cons a l ih =>
    rw [NoDoubleBoundary, List.chain'_cons']
    refine ⟨?_, ih fun hm => h (List.mem_cons_of_mem a hm)⟩
    intro y _ hc
    exact h (hc.1 ▸ List.mem_cons_self a l)

theorem boundaryInvariant_nil : BoundaryInvariant [] := by
  refine ⟨List.chain'_nil, by simp, by simp⟩

theorem boundaryInvariant_of_not_mem {l : List PhysicalKey}
    (h : PhysicalKey.KEY_SPACE ∉ l) : BoundaryInvariant l :=
  ⟨noDouble_of_not_mem h, head?_ne_space_of_not_mem h,
    getLast?_ne_space_of_not_mem h⟩

theorem boundaryInvariant_joinTrim (pool : List (List PhysicalKey))
    (h1 : ∀ u ∈ pool, u ≠ [])
    (h2 : ∀ u ∈ pool, PhysicalKey.KEY_SPACE ∉ u) :
    BoundaryInvariant (joinTrim pool) := by
  induction pool with
  | nil => exact boundaryInvariant_nil
  | cons u rest ih =>
    have hu_ne : u ≠ [] := h1 u (List.mem_cons_self u rest)
    have hu_sp : PhysicalKey.KEY_SPACE ∉ u := h2 u (List.mem_cons_self u rest)
    by_cases hr : rest = []
    · subst hr
      rw [joinTrim_single]
      exact boundaryInvariant_of_not_mem hu_sp
    · have ihv := ih (fun v hv => h1 v (List.mem_cons_of_mem u hv))
        (fun v hv => h2 v (List.mem_cons_of_mem u hv))
      have htrim_ne : joinTrim rest ≠ [] :=
        joinTrim_ne_nil rest hr (fun v hv => h1 v (List.mem_cons_of_mem u hv))
      have hshape : u ++ PhysicalKey.KEY_SPACE :: joinTrim rest =
          (u ++ [PhysicalKey.KEY_SPACE]) ++ joinTrim rest := by simp
      rw [joinTrim_cons u rest hr]
      refine ⟨?_, ?_, ?_⟩
      · rw [NoDoubleBoundary, hshape, List.chain'_append]
        refine ⟨?_, ihv.1, ?_⟩
        · rw [List.chain'_append]
          refine ⟨noDouble_of_not_mem hu_sp, List.chain'_singleton _, ?_⟩
          intro x hx y hy hc
          exact getLast?_ne_space_of_not_mem hu_sp (hc.1 ▸ Option.mem_def.mp hx)
        · intro x _ y hy hc
          exact ihv.2.1 (hc.2 ▸ Option.mem_def.mp hy)
      · rw [List.head?_append_of_ne_nil u hu_ne]
        exact head?_ne_space_of_not_mem hu_sp
      · rw [hshape, List.getLast?_append_of_ne_nil _ htrim_ne]
        exact ihv.2.2

/-!
Unit-membership lemmas for the individual generators.
-/

theorem mem_listMul {α : Type} {u : α} {l : List α} {n : Nat}
    (h : u ∈ listMul l n) : u ∈ l := by
  simp only [listMul, List.mem_flatten, List.mem_replicate] at h
  obtain ⟨s, ⟨-, rfl⟩, hu⟩ := h
  exact hu

theorem listMul_one {α : Type} (l : List α) : listMul l 1 = l := by
  simp [listMul]

theorem adjacentPairs_mem {hand : List PhysicalKey} {u : List PhysicalKey}
    (h : u ∈ adjacentPairs hand) :
    ∃ a ∈ hand, ∃ b ∈ hand, u = [a, b] := by
  induction hand with
  | nil => simp [adjacentPairs] at h
  | cons x rest ih =>
    cases rest with
    | nil => simp [adjacentPairs] at h
    | cons y rest2 =>
      rw [adjacentPairs, List.tail_cons, List.zipWith_cons_cons] at h
      rcases List.mem_cons.mp h with hu | hu
      · exact ⟨x, List.mem_cons_self x _, y,
          List.mem_cons_of_mem x (List.mem_cons_self y _), hu⟩
      · obtain ⟨a, ha, b, hb, rfl⟩ := ih hu
        exact ⟨a, List.mem_cons_of_mem x ha, b, List.mem_cons_of_mem x hb, rfl⟩

theorem zipPairs_mem {L R : List PhysicalKey} {u : List PhysicalKey}
    (h : u ∈ List.zipWith (fun l r => [l, r]) L R) :
    ∃ a ∈ L, ∃ b ∈ R, u = [a, b] := by
  induction L generalizing R with
  | nil => simp at h
  | cons x L2 ih =>
    cases R with
    | nil => simp at h
    | cons y R2 =>
      rw [List.zipWith_cons_cons] at h
      rcases List.mem_cons.mp h with hu | hu
      · exact ⟨x, List.mem_cons_self x _, y, List.mem_cons_self y _, hu⟩
      · obtain ⟨a, ha, b, hb, rfl⟩ := ih hu
        exact ⟨a, List.mem_cons_of_mem x ha, b, List.mem_cons_of_mem y hb, rfl⟩

theorem pyNegIdx_mem {l : List PhysicalKey} {k : Nat} {a : PhysicalKey}
    (h : pyNegIdx l k = some a) : a ∈ l := by
  rw [pyNegIdx] at h
  split at h
  · obtain rfl := Option.some.inj h
    exact List.get_mem l _ _
  · exact absurd h (by simp)

theorem mirrorPairsFrom_mem {left right : List PhysicalKey} {idx : Nat}
    {pairs : List (List PhysicalKey)} {u : List PhysicalKey}
    (h : mirrorPairsFrom left right idx = some pairs) (hu : u ∈ pairs) :
    ∃ a ∈ left, ∃ b ∈ right, u = [a, b] := by
  induction left generalizing idx pairs with
  | nil =>
    rw [mirrorPairsFrom] at h
    obtain rfl : ([] : List (List PhysicalKey)) = pairs := Option.some.inj h
    simp at hu
  | cons l ls ih =>
    rw [mirrorPairsFrom] at h
    cases hpy : pyNegIdx right (idx + 1) with
    | none => rw [hpy] at h; exact absurd h (by simp)
    | some r =>
      rw [hpy] at h
      cases hrec : mirrorPairsFrom ls right (idx + 1) with
      | none => rw [hrec] at h; exact absurd h (by simp)
      | some rest =>
        rw [hrec] at h
        obtain rfl : [l, r] :: rest = pairs := by
          simpa using h
        rcases List.mem_cons.mp hu with hu1 | hu2
        · exact ⟨l, List.mem_cons_self l ls, r, pyNegIdx_mem hpy, hu1⟩
        · obtain ⟨a, ha, b, hb, rfl⟩ := ih hrec hu2
          exact ⟨a, List.mem_cons_of_mem l ha, b, hb, rfl⟩

theorem pseudoWordLen_ge (lenChoice : Nat → Fin 3) (i : Nat) :
    3 ≤ pseudoWordLen lenChoice i := by
  rw [pseudoWordLen]
  exact (by decide :
    ∀ f : Fin 3, 3 ≤ ([3, 4, 5] : List Nat).get (Fin.cast (by decide) f))
    (lenChoice i)

theorem getD_mod_mem {l : List PhysicalKey} (h : l.length ≠ 0) (x : Nat)
    (d : PhysicalKey) : l.getD (x % l.length) d ∈ l := by
  have hlt : x % l.length < l.length := Nat.mod_lt x (Nat.pos_of_ne_zero h)
  rw [List.getD_eq_getElem l d hlt]
  exact l.getElem_mem hlt

theorem collectWords_length {f : Nat → Option (List PhysicalKey)}
    {l : List Nat} {ws : List (List PhysicalKey)}
    (h : collectWords f l = some ws) : ws.length = l.length := by
  induction l generalizing ws with
  | nil =>
    rw [collectWords] at h
    obtain rfl : ([] : List (List PhysicalKey)) = ws := Option.some.inj h
    rfl
  | cons i rest ih =>
    rw [collectWords] at h
    cases hf : f i with
    | none => rw [hf] at h; exact absurd h (by simp)
    | some w =>
      rw [hf] at h
      cases hrec : collectWords f rest with
      | none => rw [hrec] at h; exact absurd h (by simp)
      | some ws2 =>
        rw [hrec] at h
        obtain rfl : w :: ws2 = ws := by simpa using h
        simp [ih hrec]

theorem collectWords_mem {f : Nat → Option (List PhysicalKey)}
    {l : List Nat} {ws : List (List PhysicalKey)} {w : List PhysicalKey}
    (h : collectWords f l = some ws) (hw : w ∈ ws) :
    ∃ i ∈ l, f i = some w := by
  induction l generalizing ws with
  | nil =>
    rw [collectWords] at h
    obtain rfl : ([] : List (List PhysicalKey)) = ws := Option.some.inj h
    simp at hw
  | cons i rest ih =>
    rw [collectWords] at h
    cases hf : f i with
    | none => rw [hf] at h; exact absurd h (by simp)
    | some w2 =>
      rw [hf] at h
      cases hrec : collectWords f rest with
      | none => rw [hrec] at h; exact absurd h (by simp)
      | some ws2 =>
        rw [hrec] at h
        obtain rfl : w2 :: ws2 = ws := by simpa using h
        rcases List.mem_cons.mp hw with hw1 | hw2
        · exact ⟨i, List.mem_cons_self i rest, hw1 ▸ hf⟩
        · obtain ⟨j, hj, hfj⟩ := ih hrec hw2
          exact ⟨j, List.mem_cons_of_mem i hj, hfj⟩

theorem sum_map_length_of_all {α : Type} (l : List (List α)) (k : Nat)
    (h : ∀ u ∈ l, u.length = k) : (l.map List.length).sum = k * l.length := by
  induction l with
  | nil => simp
  | cons u rest ih =>
    have hu := h u (List.mem_cons_self u rest)
    have := ih fun v hv => h v (List.mem_cons_of_mem u hv)
    simp [hu, this, Nat.mul_succ]
    omega

theorem sum_count_replicate_zero (K : List PhysicalKey) (k : PhysicalKey)
    (r : Nat) (hk : k ∉ K) :
    ((K.map fun x => (List.replicate r x).count k).sum = 0) := by
  induction K with
  | nil => simp
  | cons x rest ih =>
    have hx : x ≠ k := fun hxk => hk (hxk ▸ List.mem_cons_self x rest)
    have hr := ih fun hm => hk (List.mem_cons_of_mem x hm)
    rw [List.map_cons, List.sum_cons, hr, List.count_replicate]
    simp [hx]

theorem sum_count_replicate (K : List PhysicalKey) (k : PhysicalKey) (r : Nat)
    (hnodup : K.Nodup) (hk : k ∈ K) :
    ((K.map fun x => (List.replicate r x).count k).sum = r) := by
  induction K with
  | nil => simp at hk
  | cons x rest ih =>
    rcases List.mem_cons.mp hk with rfl | hk2
    · have hx : k ∉ rest := (List.nodup_cons.mp hnodup).1
      rw [List.map_cons, List.sum_cons, sum_count_replicate_zero rest k r hx,
        List.count_replicate]
      simp
    · have hx : x ≠ k := by
        rintro rfl
        exact (List.nodup_cons.mp hnodup).1 hk2
      rw [List.map_cons, List.sum_cons,
        ih (List.nodup_cons.mp hnodup).2 hk2, List.count_replicate]
      simp [hx]

theorem mirrorPairsFrom_isSome (left right : List PhysicalKey) (idx : Nat) :
    (mirrorPairsFrom left right idx).isSome ↔
      (left = [] ∨ idx + left.length ≤ right.length) := by
  induction left generalizing idx with
  | nil => simp [mirrorPairsFrom]
  | cons l ls ih =>
    rw [mirrorPairsFrom]
    cases hpy : pyNegIdx right (idx + 1) with
    | none =>
      have hgt : right.length < idx + 1 := by
        by_contra hc
        simp [pyNegIdx, Nat.le_of_not_lt hc] at hpy
      simp only [Option.isSome_none, Bool.false_eq_true, false_iff]
      push_neg
      refine ⟨by simp, ?_⟩
      simp only [List.length_cons]
      omega
    | some r =>
      have hle : idx + 1 ≤ right.length := by
        by_contra hc
        rw [pyNegIdx, dif_neg (by omega)] at hpy
        exact absurd hpy (by simp)
      rw [Option.isSome_map', ih (idx + 1)]
      simp only [List.length_cons, List.cons_ne_nil, false_or]
      constructor
      · rintro (rfl | hlen)
        · simp only [List.length_nil]
          omega
        · omega
      · intro hlen
        right
        omega

/-!
Heap lemmas: allocation and writes to fresh cells leave existing cells
unchanged.
-/

theorem readH_append (h : Heap) (r : HRef) (v : List PhysicalKey)
    (hr : r < h.length) : readH (h ++ [v]) r = readH h r := by
  rw [readH, readH, List.getD, List.getD, List.get?_append hr]

theorem readH_set_ne (h : Heap) (r1 r2 : HRef) (v : List PhysicalKey)
    (hne : r1 ≠ r2) : readH (writeH h r1 v) r2 = readH h r2 := by
  rw [readH, readH, writeH, List.getD, List.getD, List.get?_set_ne _ _ hne]

/-!
Alignment lemma for the text renderer: when every non-space key resolves
(possibly through the unshifted fallback), the rendered string is
positionally aligned with the key sequence.
-/

theorem render_aligned (res : Nat → Bool → Option Char) (coins : Nat → Bool)
    (mode : ShiftMode) :
    ∀ (S : List PhysicalKey) (n : Nat),
      (∀ k ∈ S, k ≠ PhysicalKey.KEY_SPACE →
        ∀ b, (resolve_key_character res k b).isSome) →
      (render_keys_to_text res coins mode S n).length = S.length ∧
      ∀ i, i < S.length →
        (render_keys_to_text res coins mode S n).get? i =
          renderCharAt res coins mode S n i := by
  intro S
  induction S with
  | nil => intro n _; exact ⟨rfl, fun i hi => absurd hi (by simp)⟩
  | cons key rest ih =>
    intro n hres
    have hrest : ∀ k ∈ rest, k ≠ PhysicalKey.KEY_SPACE →
        ∀ b, (resolve_key_character res k b).isSome :=
      fun k hk => hres k (List.mem_cons_of_mem key hk)
    by_cases hsp : key = PhysicalKey.KEY_SPACE
    · subst hsp
      have ihn := ih n hrest
      rw [render_keys_to_text, if_pos rfl]
      constructor
      · simp [ihn.1]
      · intro i hi
        match i with
        | 0 =>
          rw [renderCharAt]
          simp
        | Nat.succ j =>
          have hj : j < rest.length := by
            simp at hi
            omega
          rw [List.get?_cons_succ, ihn.2 j hj, renderCharAt, renderCharAt]
          simp only [List.get?_cons_succ]
          rw [coinIndexAt, coinIndexAt, List.take_succ_cons,
            List.countP_cons]
          simp
    · obtain ⟨c, hc⟩ := Option.isSome_iff_exists.mp
        (hres key (List.mem_cons_self key rest) hsp
          (should_use_shift mode (coins n)))
      have ihn := ih (n + 1) hrest
      rw [render_keys_to_text, if_neg hsp]
      simp only [hc]
      constructor
      · simp [ihn.1]
      · intro i hi
        match i with
        | 0 =>
          rw [renderCharAt]
          simp only [List.get?_cons_zero, List.singleton_append]
          rw [if_neg hsp, coinIndexAt]
          simp [hc]
        | Nat.succ j =>
          have hj : j < rest.length := by
            simp at hi
            omega
          rw [List.singleton_append, List.get?_cons_succ, ihn.2 j hj,
            renderCharAt, renderCharAt]
          simp only [List.get?_cons_succ]
          rw [coinIndexAt, coinIndexAt, List.take_succ_cons,
            List.countP_cons]
          simp [hsp]
          ring_nf

/-!
Remaining shared helpers for the generator-shape claims.
-/

theorem adjacentPairs_length (hand : List PhysicalKey) :
    (adjacentPairs hand).length = hand.length - 1 := by
  rw [adjacentPairs]
  simp [List.length_zipWith]

theorem boundaryInvariant_pairs_pool
    (fp : List (List PhysicalKey) → List (List PhysicalKey))
    (hfp : ∀ l, List.Perm (fp l) l)
    (pairs : List (List PhysicalKey)) (reps : Nat) (shuffle : Bool)
    (hmem : ∀ u ∈ pairs, u ≠ [] ∧ PhysicalKey.KEY_SPACE ∉ u) :
    BoundaryInvariant
      (joinTrim (if shuffle then fp (listMul pairs reps)
        else listMul pairs reps)) := by
  have hu2 : ∀ u, u ∈ (if shuffle then fp (listMul pairs reps)
      else listMul pairs reps) → u ∈ pairs := by
    intro u hu
    cases shuffle
    · exact mem_listMul (by simpa using hu)
    · exact mem_listMul (((hfp _).mem_iff).mp (by simpa using hu))
  exact boundaryInvariant_joinTrim _
    (fun u hu => (hmem u (hu2 u hu)).1)
    (fun u hu => (hmem u (hu2 u hu)).2)

/-!
Claim theorems.
-/

/-- Claim C3: every generator was claimed to return an empty sequence on an
empty row layout without raising.  The code violates this (and its own unit
tests `test_rolls_empty` and `test_pseudo_words_empty`): `rolls` pools four
empty patterns and emits their separators, returning seven boundary keys at
the default `reps=2`, and `pseudo_words` raises `IndexError` (modelled as
`none`) because `random.choices` rejects an empty population.  The four
pair/key generators do return empty. -/
theorem C3_empty_layout_behaviour :
    rolls noShuffleP emptyRow 2 true = List.replicate 7 PhysicalKey.KEY_SPACE ∧
    pseudo_words lenChoice0 keyChoice0 emptyRow 5 = none ∧
    single_key_repeat noShuffleK [] 2 true = [] ∧
    same_hand_adjacent noShuffleP emptyRow 3 true = [] ∧
    alternating_pairs noShuffleP emptyRow 4 true = [] ∧
    mirror_pairs noShuffleP emptyRow 4 true = some [] := by
  refine ⟨?_, ?_, ?_, ?_, ?_, ?_⟩ <;> rfl

/-- Claim C10: `mirror_pairs` returns normally exactly when the left hand is
no longer than the right hand; otherwise the negative index
`right[-(idx+1)]` walks past the start of `right` and raises `IndexError`
(modelled as `none`). -/
theorem C10_mirror_totality
    (f : List (List PhysicalKey) → List (List PhysicalKey))
    (row : RowLayout) (reps : Nat) (shuffle : Bool) :
    (mirror_pairs f row reps shuffle).isSome ↔
      row.left.length ≤ row.right.length := by
  rw [mirror_pairs]
  cases hm : mirrorPairsFrom row.left row.right 0 with
  | none =>
    have hno := (mirrorPairsFrom_isSome row.left row.right 0).not.mp
      (by rw [hm]; simp)
    push_neg at hno
    simp only [Option.isSome_none, Bool.false_eq_true, false_iff]
    have h2 := hno.2
    omega
  | some pairs =>
    have hyes := (mirrorPairsFrom_isSome row.left row.right 0).mp
      (by rw [hm]; simp)
    simp only [Option.isSome_some, true_iff]
    rcases hyes with h0 | hle
    · simp [h0]
    · omega

/-- Claim C5 fails as stated when the flat key list contains a duplicated
key: with `K = [KEY_A, KEY_A]` and `r = 1`, `KEY_A` occurs twice in the
output, not `r = 1` times. -/
theorem C5_counterexample :
    ([PhysicalKey.KEY_A, PhysicalKey.KEY_A] : List PhysicalKey) ≠ [] ∧
    (1 : Nat) ≥ 1 ∧
    PhysicalKey.KEY_A ∈ [PhysicalKey.KEY_A, PhysicalKey.KEY_A] ∧
    (single_key_repeat noShuffleK [PhysicalKey.KEY_A, PhysicalKey.KEY_A] 1
      false).count PhysicalKey.KEY_A ≠ 1 := by
  decide

/-- Claim C8 fails as stated at the completed-chunk boundary: with the
target fully typed (non-empty buffer), `on_key` returns before the
backspace branch, so nothing is removed. -/
theorem C8_counterexample :
    stDone.typed_text ≠ [] ∧
    (on_key false miniRevMap stDone KeyEvent.backspace).typed_text
      ≠ stDone.typed_text.dropLast := by
  decide

/-- Claim C2 fails as stated for a resolver with unmapped keys: an
unresolvable key contributes the empty string, so the rendered text is
shorter than the key sequence. -/
theorem C2_counterexample :
    (render_keys_to_text noneResolver allFalseCoins ShiftMode.off
      [PhysicalKey.KEY_A] 0).length
      ≠ ([PhysicalKey.KEY_A] : List PhysicalKey).length := by
  decide

/-- Claim C4 fails as stated for `pseudo_words`, which never trims the
boundary after its last word: with one word over the home row the output
ends with `KEY_SPACE`. -/
theorem C4_counterexample :
    pseudo_words lenChoice0 keyChoice0 homeRow 1
      = some [PhysicalKey.KEY_A, PhysicalKey.KEY_A, PhysicalKey.KEY_A,
        PhysicalKey.KEY_SPACE] ∧
    ([PhysicalKey.KEY_A, PhysicalKey.KEY_A, PhysicalKey.KEY_A,
      PhysicalKey.KEY_SPACE] : List PhysicalKey).getLast?
      = some PhysicalKey.KEY_SPACE := by
  refine ⟨rfl, rfl⟩

/-- Claim C5, amended: for a non-empty flat key list with pairwise distinct
keys none of which is the boundary key, and `r ≥ 1`,
`single_key_repeat(K, r, shuffle=false)` has length `n*r + (n-1)`, contains
each key of `K` exactly `r` times, and contains `n-1` boundaries, no two of
which are adjacent.  (A duplicated key occurs `r` times per occurrence in
`K`, and a `KEY_SPACE` inside `K` would be counted among the boundaries.) -/
theorem C5_amended (f : List PhysicalKey → List PhysicalKey)
    (K : List PhysicalKey) (r : Nat) (hne : K ≠ []) (hr : 1 ≤ r)
    (hnodup : K.Nodup) (hsp : PhysicalKey.KEY_SPACE ∉ K) :
    (single_key_repeat f K r false).length = K.length * r + (K.length - 1) ∧
    (∀ k ∈ K, (single_key_repeat f K r false).count k = r) ∧
    (single_key_repeat f K r false).count PhysicalKey.KEY_SPACE
      = K.length - 1 ∧
    NoDoubleBoundary (single_key_repeat f K r false) := by
  have hdef : single_key_repeat f K r false
      = joinTrim (K.map fun k => List.replicate r k) := rfl
  have hKpos : 0 < K.length := List.length_pos.mpr hne
  have hmapne : (K.map fun k => List.replicate r k) ≠ [] := by
    simpa using hne
  have hlen : ∀ u ∈ (K.map fun k => List.replicate r k), u.length = r := by
    intro u hu
    obtain ⟨k, -, rfl⟩ := List.mem_map.mp hu
    simp
  have hcnts : ∀ k : PhysicalKey,
      ((K.map fun x => List.replicate r x).map (List.count k))
        = K.map fun x => (List.replicate r x).count k := by
    intro k
    rw [List.map_map]
    rfl
  refine ⟨?_, ?_, ?_, ?_⟩
  · rw [hdef, joinTrim_length, sum_map_length_of_all _ r hlen]
    simp only [List.length_map]
    have := Nat.mul_comm r K.length
    omega
  · intro k hk
    have hks : k ≠ PhysicalKey.KEY_SPACE := fun hkk => hsp (hkk ▸ hk)
    rw [hdef, joinTrim_count _ hmapne k, hcnts k,
      sum_count_replicate K k r hnodup hk]
    simp [hks]
  · rw [hdef, joinTrim_count _ hmapne PhysicalKey.KEY_SPACE,
      hcnts PhysicalKey.KEY_SPACE,
      sum_count_replicate_zero K PhysicalKey.KEY_SPACE r hsp]
    simp
  · rw [hdef]
    refine (boundaryInvariant_joinTrim _ ?_ ?_).1
    · intro u hu
      obtain ⟨k, -, rfl⟩ := List.mem_map.mp hu
      intro hcon
      have := congrArg List.length hcon
      simp at this
      omega
    · intro u hu
      obtain ⟨k, hk, rfl⟩ := List.mem_map.mp hu
      intro hmem
      obtain ⟨-, rfl⟩ := List.mem_replicate.mp hmem
      exact hsp hk

/-- Witness for the amended claim C5 on the concatenated home row with two
repetitions. -/
theorem C5_amended_witness :
    (single_key_repeat noShuffleK (homeRow.left ++ homeRow.right) 2
      false).length = 8 * 2 + 7 ∧
    (single_key_repeat noShuffleK (homeRow.left ++ homeRow.right) 2
      false).count PhysicalKey.KEY_A = 2 ∧
    (single_key_repeat noShuffleK (homeRow.left ++ homeRow.right) 2
      false).count PhysicalKey.KEY_SPACE = 7 ∧
    NoDoubleBoundary (single_key_repeat noShuffleK
      (homeRow.left ++ homeRow.right) 2 false) := by
  have h := C5_amended noShuffleK (homeRow.left ++ homeRow.right) 2
    (by decide) (by decide) (by decide) (by decide)
  exact ⟨h.1, h.2.1 PhysicalKey.KEY_A (by decide), h.2.2.1, h.2.2.2⟩

/-- Claim C6: `same_hand_adjacent` builds `(L-1) + (R-1)` pairs (with the
truncated subtraction a hand shorter than two keys contributes no pair), the
unshuffled single-repetition output has length `2*P + (P-1)` when the pair
count `P` is non-zero, and the first pair is `[left[0], left[1]]` whenever
the left hand has two keys. -/
theorem C6_adjacency_shape
    (f : List (List PhysicalKey) → List (List PhysicalKey))
    (row : RowLayout) :
    (adjacentPairs row.left ++ adjacentPairs row.right).length
      = (row.left.length - 1) + (row.right.length - 1) ∧
    (1 ≤ (row.left.length - 1) + (row.right.length - 1) →
      (same_hand_adjacent f row 1 false).length
        = 2 * ((row.left.length - 1) + (row.right.length - 1))
          + ((row.left.length - 1) + (row.right.length - 1) - 1)) ∧
    (∀ a b ls, row.left = a :: b :: ls →
      (same_hand_adjacent f row 1 false).get? 0 = some a ∧
      (same_hand_adjacent f row 1 false).get? 1 = some b) := by
  have hdef : same_hand_adjacent f row 1 false
      = joinTrim (adjacentPairs row.left ++ adjacentPairs row.right) := by
    rw [same_hand_adjacent, listMul_one]
    simp
  have hplen : (adjacentPairs row.left ++ adjacentPairs row.right).length
      = (row.left.length - 1) + (row.right.length - 1) := by
    rw [List.length_append, adjacentPairs_length, adjacentPairs_length]
  have hpair2 : ∀ u ∈ adjacentPairs row.left ++ adjacentPairs row.right,
      u.length = 2 := by
    intro u hu
    rcases List.mem_append.mp hu with hu1 | hu2
    · obtain ⟨a, -, b, -, rfl⟩ := adjacentPairs_mem hu1
      rfl
    · obtain ⟨a, -, b, -, rfl⟩ := adjacentPairs_mem hu2
      rfl
  refine ⟨hplen, ?_, ?_⟩
  · intro hP
    rw [hdef, joinTrim_length, sum_map_length_of_all _ 2 hpair2, hplen]
    omega
  · intro a b ls hleft
    have hpairs : adjacentPairs row.left
        = [a, b] :: adjacentPairs (b :: ls) := by
      rw [hleft, adjacentPairs, adjacentPairs]
      simp
    rw [hdef, hpairs, List.cons_append]
    by_cases hrest : adjacentPairs (b :: ls) ++ adjacentPairs row.right = []
    · rw [hrest, joinTrim_single]
      exact ⟨rfl, rfl⟩
    · rw [joinTrim_cons _ _ hrest]
      exact ⟨rfl, rfl⟩

/-- Witness for claim C6 on the home row: six pairs, output length 17, and
the output begins with the `A`,`S` pair. -/
theorem C6_witness :
    (adjacentPairs homeRow.left ++ adjacentPairs homeRow.right).length
      = 6 ∧
    (same_hand_adjacent noShuffleP homeRow 1 false).length = 2 * 6 + 5 ∧
    (same_hand_adjacent noShuffleP homeRow 1 false).get? 0
      = some PhysicalKey.KEY_A ∧
    (same_hand_adjacent noShuffleP homeRow 1 false).get? 1
      = some PhysicalKey.KEY_S := by
  have h := C6_adjacency_shape noShuffleP homeRow
  have h3 := h.2.2 PhysicalKey.KEY_A PhysicalKey.KEY_S
    [PhysicalKey.KEY_D, PhysicalKey.KEY_F] rfl
  exact ⟨h.1, h.2.1 (by decide), h3.1, h3.2⟩

/-- Claim C1: at a valid index the code's acceptance test agrees with the
stated decision rule — with a physical guess present both the physical key
and the character must match (newline and carriage return interchangeable
when the expected character is either and the pressed key is Enter), and
with no guess the character alone decides. -/
theorem C1_decision_rule (revMap : Char → Option PhysicalKey)
    (target_keys : List PhysicalKey) (target_text : List Char) (idx : Nat)
    (c : Char) (h1 : idx < target_keys.length)
    (h2 : idx < target_text.length) :
    keystroke_correct revMap target_keys target_text idx c = true ↔
      spec_accepts revMap target_keys target_text idx c := by
  rw [keystroke_correct, spec_accepts]
  cases hpp : char_to_physical_pressed revMap c with
  | none => simp
  | some p =>
    simp only [Bool.and_eq_true, Bool.or_eq_true, decide_eq_true_eq,
      Option.some.injEq]
    tauto

/-- Witness for claim C1: typing `a` against expected key `KEY_A` and
expected character `a` under the mini layout. -/
theorem C1_witness :
    keystroke_correct miniRevMap [PhysicalKey.KEY_A, PhysicalKey.KEY_J]
      ['a', 'j'] 0 'a' = true ↔
      spec_accepts miniRevMap [PhysicalKey.KEY_A, PhysicalKey.KEY_J]
        ['a', 'j'] 0 'a' :=
  C1_decision_rule miniRevMap [PhysicalKey.KEY_A, PhysicalKey.KEY_J]
    ['a', 'j'] 0 'a' (by decide) (by decide)

/-- Claim C7: an incorrect keystroke at a valid index increments the chunk
error counter by exactly one; in non-strict mode the typed character is
still appended (the index, the typed length, advances by one), while in
strict (hard) mode the buffer is unchanged. -/
theorem C7_incorrect_keystroke (hard : Bool)
    (revMap : Char → Option PhysicalKey) (st : TutorState) (ev : KeyEvent)
    (c : Char) (hc : classify_char ev = some c)
    (hlen : st.typed_text.length < st.target_text.length)
    (hkeys : st.typed_text.length < st.target_keys.length)
    (hwrong : keystroke_correct revMap st.target_keys st.target_text
      st.typed_text.length c = false) :
    (on_key hard revMap st ev).current_chunk_errors
      = st.current_chunk_errors + 1 ∧
    (on_key hard revMap st ev).typed_text
      = (if hard then st.typed_text else st.typed_text ++ [c]) := by
  have hnot : ¬ st.target_text.length ≤ st.typed_text.length := by omega
  cases ev with
  | backspace => simp [classify_char] at hc
  | other => simp [classify_char] at hc
  | space =>
    obtain rfl : (' ' : Char) = c := by simpa [classify_char] using hc
    rw [on_key, if_neg hnot]
    simp [classify_char, hkeys, hwrong]
    exact fun h => KeyEvent.noConfusion h
  | enter =>
    obtain rfl : ('\n' : Char) = c := by simpa [classify_char] using hc
    rw [on_key, if_neg hnot]
    simp [classify_char, hkeys, hwrong]
    exact fun h => KeyEvent.noConfusion h
  | tab =>
    obtain rfl : ('\t' : Char) = c := by simpa [classify_char] using hc
    rw [on_key, if_neg hnot]
    simp [classify_char, hkeys, hwrong]
    exact fun h => KeyEvent.noConfusion h
  | printable c0 =>
    obtain rfl : c0 = c := by simpa [classify_char] using hc
    rw [on_key, if_neg hnot]
    simp [classify_char, hkeys, hwrong]
    exact fun h => KeyEvent.noConfusion h

/-- Witness for claim C7: typing `b` against expected `a` in strict mode
adds one error and leaves the buffer empty. -/
theorem C7_witness :
    (on_key true miniRevMap stWrong
      (KeyEvent.printable 'b')).current_chunk_errors = 1 ∧
    (on_key true miniRevMap stWrong (KeyEvent.printable 'b')).typed_text
      = [] := by
  have h := C7_incorrect_keystroke true miniRevMap stWrong
    (KeyEvent.printable 'b') 'b' rfl (by decide) (by decide) (by decide)
  exact ⟨h.1, h.2⟩

/-- Claim C8, amended: while the chunk is not yet complete (typed length
strictly below the target length), a backspace on a non-empty typed buffer
removes exactly its last character and decrements the index (the typed
length) by one, in both strict and non-strict mode, leaving the chunk error
counter and the targets unchanged.  At the completed-chunk boundary the
backspace is ignored (see the counterexample). -/
theorem C8_amended (hard : Bool) (revMap : Char → Option PhysicalKey)
    (st : TutorState) (hne : st.typed_text ≠ [])
    (hlen : st.typed_text.length < st.target_text.length) :
    (on_key hard revMap st KeyEvent.backspace).typed_text
      = st.typed_text.dropLast ∧
    (on_key hard revMap st KeyEvent.backspace).typed_text.length
      = st.typed_text.length - 1 ∧
    (on_key hard revMap st KeyEvent.backspace).current_chunk_errors
      = st.current_chunk_errors ∧
    (on_key hard revMap st KeyEvent.backspace).target_keys
      = st.target_keys ∧
    (on_key hard revMap st KeyEvent.backspace).target_text
      = st.target_text := by
  have hnot : ¬ st.target_text.length ≤ st.typed_text.length := by omega
  rw [on_key, if_neg hnot]
  refine ⟨rfl, ?_, rfl, rfl, rfl⟩
  simp [List.length_dropLast]

/-- Witness for the amended claim C8: mid-chunk backspace after an accepted
character and three recorded errors. -/
theorem C8_witness :
    (on_key false miniRevMap stMid KeyEvent.backspace).typed_text = [] ∧
    (on_key false miniRevMap stMid KeyEvent.backspace).typed_text.length
      = 0 ∧
    (on_key false miniRevMap stMid KeyEvent.backspace).current_chunk_errors
      = 3 := by
  have h := C8_amended false miniRevMap stMid (by decide) (by decide)
  exact ⟨h.1, h.2.1, h.2.2.1⟩

/-- Claim C2, amended: whenever the resolver (with the unshifted fallback)
yields a character for every non-space key of the sequence, the rendered
string has exactly the sequence's length and the character at index `i`
corresponds to the physical key at index `i` (a literal space for the
boundary key, otherwise that key's resolution under the shift coin assigned
to the position).  An unresolvable key contributes the empty string and
shortens the render (see the counterexample). -/
theorem C2_amended (res : Nat → Bool → Option Char) (coins : Nat → Bool)
    (mode : ShiftMode) (S : List PhysicalKey) (n : Nat)
    (hres : ∀ k ∈ S, k ≠ PhysicalKey.KEY_SPACE →
      ∀ b, (resolve_key_character res k b).isSome) :
    (render_keys_to_text res coins mode S n).length = S.length ∧
    ∀ i, i < S.length →
      (render_keys_to_text res coins mode S n).get? i =
        renderCharAt res coins mode S n i :=
  render_aligned res coins mode S n hres

/-- Witness for the amended claim C2 on a three-key sequence under the mini
layout. -/
theorem C2_witness :
    (render_keys_to_text miniResolver allFalseCoins ShiftMode.off
      renderS 0).length = renderS.length ∧
    (render_keys_to_text miniResolver allFalseCoins ShiftMode.off
      renderS 0).get? 2
      = renderCharAt miniResolver allFalseCoins ShiftMode.off renderS 0 2 := by
  have h := C2_amended miniResolver allFalseCoins ShiftMode.off renderS 0
    (by decide)
  exact ⟨h.1, h.2 2 (by decide)⟩

theorem pair_unit_ok {a b : PhysicalKey} {L R : List PhysicalKey}
    (hsl : PhysicalKey.KEY_SPACE ∉ L) (hsr : PhysicalKey.KEY_SPACE ∉ R)
    (ha : a ∈ L) (hb : b ∈ R) :
    ([a, b] : List PhysicalKey) ≠ [] ∧ PhysicalKey.KEY_SPACE ∉ [a, b] := by
  refine ⟨by simp, ?_⟩
  intro hmem
  simp only [List.mem_cons, List.not_mem_nil, or_false] at hmem
  rcases hmem with rfl | rfl
  · exact hsl ha
  · exact hsr hb

/-- Claim C4, amended: the boundary invariant (no two consecutive
boundaries, none at the start or the end) holds for `single_key_repeat`
(with `reps ≥ 1`), `same_hand_adjacent`, `alternating_pairs`,
`mirror_pairs` (when it returns) and `rolls` (when both hands are
non-empty), for inputs whose keys do not include the boundary key and for
any permutation as the shuffle; `pseudo_words` instead keeps the boundary
after its last word, so its output ends with exactly one boundary (still
with no double boundary and no leading one). -/
theorem C4_amended
    (fk : List PhysicalKey → List PhysicalKey)
    (fp : List (List PhysicalKey) → List (List PhysicalKey))
    (hfk : ∀ l, List.Perm (fk l) l) (hfp : ∀ l, List.Perm (fp l) l)
    (keys : List PhysicalKey) (row : RowLayout) (reps count : Nat)
    (shuffle : Bool) (lc : Nat → Fin 3) (kc : Nat → Nat → Nat) :
    (1 ≤ reps → PhysicalKey.KEY_SPACE ∉ keys →
      BoundaryInvariant (single_key_repeat fk keys reps shuffle)) ∧
    (PhysicalKey.KEY_SPACE ∉ row.left → PhysicalKey.KEY_SPACE ∉ row.right →
      BoundaryInvariant (same_hand_adjacent fp row reps shuffle)) ∧
    (PhysicalKey.KEY_SPACE ∉ row.left → PhysicalKey.KEY_SPACE ∉ row.right →
      BoundaryInvariant (alternating_pairs fp row reps shuffle)) ∧
    (PhysicalKey.KEY_SPACE ∉ row.left → PhysicalKey.KEY_SPACE ∉ row.right →
      ∀ out, mirror_pairs fp row reps shuffle = some out →
        BoundaryInvariant out) ∧
    (PhysicalKey.KEY_SPACE ∉ row.left → PhysicalKey.KEY_SPACE ∉ row.right →
      row.left ≠ [] → row.right ≠ [] →
      BoundaryInvariant (rolls fp row reps shuffle)) ∧
    (PhysicalKey.KEY_SPACE ∉ row.left → PhysicalKey.KEY_SPACE ∉ row.right →
      1 ≤ count → ∀ out, pseudo_words lc kc row count = some out →
        NoDoubleBoundary out ∧ out.head? ≠ some PhysicalKey.KEY_SPACE ∧
          out.getLast? = some PhysicalKey.KEY_SPACE) := by
  refine ⟨?_, ?_, ?_, ?_, ?_, ?_⟩
  · intro hreps hsp
    simp only [single_key_repeat]
    have hpool : ∀ k, k ∈ (if shuffle then fk keys else keys) → k ∈ keys := by
      intro k hk
      cases shuffle
      · simpa using hk
      · exact ((hfk keys).mem_iff).mp (by simpa using hk)
    refine boundaryInvariant_joinTrim _ ?_ ?_
    · intro u hu
      obtain ⟨k, -, rfl⟩ := List.mem_map.mp hu
      intro hcon
      have hl := congrArg List.length hcon
      simp at hl
      omega
    · intro u hu
      obtain ⟨k, hk, rfl⟩ := List.mem_map.mp hu
      intro hmem
      obtain ⟨-, rfl⟩ := List.mem_replicate.mp hmem
      exact hsp (hpool _ hk)
  · intro hsl hsr
    simp only [same_hand_adjacent]
    refine boundaryInvariant_pairs_pool fp hfp _ reps shuffle ?_
    intro u hu
    rcases List.mem_append.mp hu with h | h
    · obtain ⟨a, ha, b, hb, rfl⟩ := adjacentPairs_mem h
      exact pair_unit_ok hsl hsl ha hb
    · obtain ⟨a, ha, b, hb, rfl⟩ := adjacentPairs_mem h
      exact pair_unit_ok hsr hsr ha hb
  · intro hsl hsr
    simp only [alternating_pairs]
    refine boundaryInvariant_pairs_pool fp hfp _ reps shuffle ?_
    intro u hu
    obtain ⟨a, ha, b, hb, rfl⟩ := zipPairs_mem hu
    exact pair_unit_ok hsl hsr ha hb
  · intro hsl hsr out hsome
    rw [mirror_pairs] at hsome
    cases hm : mirrorPairsFrom row.left row.right 0 with
    | none => rw [hm] at hsome; exact absurd hsome (by simp)
    | some pairs =>
      rw [hm] at hsome
      obtain rfl := Option.some.inj hsome
      refine boundaryInvariant_pairs_pool fp hfp _ reps shuffle ?_
      intro u hu
      obtain ⟨a, ha, b, hb, rfl⟩ := mirrorPairsFrom_mem hm hu
      exact pair_unit_ok hsl hsr ha hb
  · intro hsl hsr hlne hrne
    simp only [rolls]
    refine boundaryInvariant_pairs_pool fp hfp _ reps shuffle ?_
    intro u hu
    simp only [List.mem_cons, List.not_mem_nil, or_false] at hu
    rcases hu with rfl | rfl | rfl | rfl
    · exact ⟨hlne, hsl⟩
    · exact ⟨by simpa using hlne, by simpa using hsl⟩
    · exact ⟨hrne, hsr⟩
    · exact ⟨by simpa using hrne, by simpa using hsr⟩
  · intro hsl hsr hcnt out hsome
    simp only [pseudo_words] at hsome
    obtain ⟨words, hcw, rfl⟩ := Option.map_eq_some'.mp hsome
    have hwlen := collectWords_length hcw
    have hwne : words ≠ [] := by
      intro hcon
      rw [hcon] at hwlen
      simp at hwlen
      omega
    have hwprops : ∀ w ∈ words,
        w ≠ [] ∧ PhysicalKey.KEY_SPACE ∉ w := by
      intro w hw
      obtain ⟨i, -, hfi⟩ := collectWords_mem hcw hw
      rw [pseudoWord] at hfi
      by_cases hlen0 : (row.left ++ row.right).length = 0
      · rw [if_pos hlen0] at hfi
        exact absurd hfi (by simp)
      · rw [if_neg hlen0] at hfi
        obtain rfl := Option.some.inj hfi
        constructor
        · intro hcon
          have hl := congrArg List.length hcon
          have h3 := pseudoWordLen_ge lc i
          simp at hl
          omega
        · intro hmem
          obtain ⟨j, -, hj⟩ := List.mem_map.mp hmem
          have hm2 := getD_mod_mem hlen0 (kc i j) PhysicalKey.KEY_SPACE
          rw [hj] at hm2
          rcases List.mem_append.mp hm2 with h | h
          · exact hsl h
          · exact hsr h
    have hinv := boundaryInvariant_joinTrim words
      (fun w hw => (hwprops w hw).1) (fun w hw => (hwprops w hw).2)
    have htne := joinTrim_ne_nil words hwne (fun w hw => (hwprops w hw).1)
    rw [joinUnits_split words hwne]
    refine ⟨?_, ?_, ?_⟩
    · rw [NoDoubleBoundary, List.chain'_append]
      refine ⟨hinv.1, List.chain'_singleton _, ?_⟩
      intro x hx y hy hcon
      exact hinv.2.2 (hcon.1 ▸ Option.mem_def.mp hx)
    · rw [List.head?_append_of_ne_nil _ htne]
      exact hinv.2.1
    · rw [List.getLast?_concat]

/-- Witness for the amended claim C4: the invariant holds for the
unshuffled isolation drill over the concatenated home row and for a
shuffled (identity permutation) rolls drill over the home row. -/
theorem C4_witness :
    BoundaryInvariant (single_key_repeat noShuffleK
      (homeRow.left ++ homeRow.right) 4 false) ∧
    BoundaryInvariant (rolls noShuffleP homeRow 2 true) := by
  refine ⟨?_, ?_⟩
  · exact (C4_amended noShuffleK noShuffleP (fun l => List.Perm.refl _)
      (fun l => List.Perm.refl _) (homeRow.left ++ homeRow.right) homeRow 4 1
      false lenChoice0 keyChoice0).1 (by decide) (by decide)
  · exact (C4_amended noShuffleK noShuffleP (fun l => List.Perm.refl _)
      (fun l => List.Perm.refl _) [] homeRow 2 1 true lenChoice0
      keyChoice0).2.2.2.2.1 (by decide) (by decide) (by decide) (by decide)

/-- Claim C9: no generator mutates its input — in the heap model, after any
call (shuffling included) each caller-owned cell holds exactly the list it
held before: `single_key_repeat` shuffles a fresh copy of `keys`, the three
pair generators shuffle fresh local pair lists (heap untouched), `rolls`
shuffles a local list of references without writing through them, and
`pseudo_words` mutates nothing. -/
theorem C9_no_input_mutation
    (fk : List PhysicalKey → List PhysicalKey)
    (fp : List (List PhysicalKey) → List (List PhysicalKey))
    (fr : List HRef → List HRef)
    (lc : Nat → Fin 3) (kc : Nat → Nat → Nat)
    (h : Heap) (keysRef leftRef rightRef : HRef) (reps count : Nat)
    (shuffle : Bool)
    (hk : keysRef < h.length) (hl : leftRef < h.length)
    (hr : rightRef < h.length) :
    readH (single_key_repeatH fk h keysRef reps shuffle).1 keysRef
      = readH h keysRef ∧
    (same_hand_adjacentH fp h leftRef rightRef reps shuffle).1 = h ∧
    (alternating_pairsH fp h leftRef rightRef reps shuffle).1 = h ∧
    (mirror_pairsH fp h leftRef rightRef reps shuffle).1 = h ∧
    readH (rollsH fr h leftRef rightRef reps shuffle).1 leftRef
      = readH h leftRef ∧
    readH (rollsH fr h leftRef rightRef reps shuffle).1 rightRef
      = readH h rightRef ∧
    (pseudo_wordsH lc kc h leftRef rightRef count).1 = h := by
  refine ⟨?_, rfl, rfl, rfl, ?_, ?_, rfl⟩
  · simp only [single_key_repeatH, allocH]
    cases shuffle
    · simpa using readH_append h keysRef _ hk
    · have hne : h.length ≠ keysRef := Nat.ne_of_gt hk
      simp only [if_true]
      rw [readH_set_ne _ _ _ _ hne]
      exact readH_append h keysRef _ hk
  · simp only [rollsH, allocH]
    have s1 : leftRef < (h ++ [(readH h leftRef).reverse]).length := by
      simp only [List.length_append, List.length_cons, List.length_nil]
      exact Nat.lt_succ_of_lt hl
    rw [readH_append _ _ _ s1, readH_append _ _ _ hl]
  · simp only [rollsH, allocH]
    have s1 : rightRef < (h ++ [(readH h leftRef).reverse]).length := by
      simp only [List.length_append, List.length_cons, List.length_nil]
      exact Nat.lt_succ_of_lt hr
    rw [readH_append _ _ _ s1, readH_append _ _ _ hr]

/-- Witness for claim C9 on a concrete three-cell heap with shuffling
enabled. -/
theorem C9_witness :
    readH (single_key_repeatH noShuffleK heap0 2 3 true).1 2
      = readH heap0 2 ∧
    readH (rollsH noShuffleR heap0 0 1 2 true).1 0 = readH heap0 0 ∧
    readH (rollsH noShuffleR heap0 0 1 2 true).1 1 = readH heap0 1 := by
  have h := C9_no_input_mutation noShuffleK noShuffleP noShuffleR lenChoice0
    keyChoice0 heap0 2 0 1 3 5 true (by decide) (by decide) (by decide)
  exact ⟨h.1, h.2.2.2.2.1, h.2.2.2.2.2.1⟩

end Textype
